import Mathlib

/-!
# ChillPorodomoApp — verification of the schedule/activity core

Shallow embedding of the schedule-parsing and activity-scheduling core of
the ChillPorodomoApp repository, together with proofs about the claims of
its specification.

Modelling conventions, used throughout:

* Wall-clock times of day ("HH:MM" strings in the JavaScript source) are
  represented by their minute count since midnight (an `Int`), via the
  source's own `timeToMinutes` / `minutesToTime` bijection.  The source
  converts to minutes on entry and back to a string on exit; the proofs
  work in the minutes domain.  Where a function stores or compares the raw
  strings (the `getTimeSlot` period table) we keep `String`.
* JavaScript strings that are scanned character by character (the schedule
  cell parser, `sanitizeString`) are modelled as `List Char`.
* JavaScript numbers that may be `undefined`/`null`/`NaN` are modelled as
  `Option Int` / `Option Nat`; `undefined`, `null` and `NaN` all behave
  identically in the expressions that consume them here (they are falsy in
  `x || d`, and `parseInt` of any of them is `NaN`), so one `none` models
  all three.
* All functions are total, mirroring the fact that the modelled code paths
  raise no exceptions.
-/

namespace Chill

/-! ## Time helpers (ActivityScheduler.timeToMinutes and friends) -/

/-- Decimal value of a digit string (JS `Number`/`parseInt` on an
all-digit string). -/
def digitsToNat (ds : List Char) : Nat :=
  ds.foldl (fun n c => n * 10 + (c.toNat - 48)) 0

/-- Split a character list at every colon (JS `split(':')`). -/
def splitOnColon : List Char → List (List Char)
  | [] => [[]]
  | c :: cs =>
    if c = ':' then [] :: splitOnColon cs
    else
      match splitOnColon cs with
      | [] => [[c]]
      | h :: t => (c :: h) :: t

/-- `timeToMinutes` from the source: split on ":" and compute h*60+m.
Used only on well-formed "H:MM" / "HH:MM" strings (the period table). -/
def timeToMinutes (timeStr : String) : Nat :=
  match splitOnColon timeStr.toList with
  | [h, m] => digitsToNat h * 60 + digitsToNat m
  | _ => 0

/-! ## ScheduleManager.getTimeSlot / getDayName (period time table, C7) -/

/-- Result shape of `getTimeSlot`: `{start, end}` (the JS field `end` is a
Lean keyword, rendered `stop`). -/
structure PeriodTime where
  start : String
  stop : String
  deriving DecidableEq, Repr

/-- `ScheduleManager.getTimeSlot`: static lookup table, object-literal
indexing modelled as an if-chain, default `{start:'', end:''}`. -/
def getTimeSlot (period : Nat) : PeriodTime :=
  if period = 1 then ⟨"7:00", "7:50"⟩
  else if period = 2 then ⟨"8:00", "8:50"⟩
  else if period = 3 then ⟨"9:00", "9:50"⟩
  else if period = 4 then ⟨"10:00", "10:50"⟩
  else if period = 5 then ⟨"11:00", "11:50"⟩
  else if period = 6 then ⟨"12:30", "13:20"⟩
  else if period = 7 then ⟨"13:30", "14:20"⟩
  else if period = 8 then ⟨"14:30", "15:20"⟩
  else if period = 9 then ⟨"15:30", "16:20"⟩
  else if period = 10 then ⟨"16:30", "17:20"⟩
  else ⟨"", ""⟩

/-- `ScheduleManager.getDayName`: static lookup 2..7 → "Thứ n", default "". -/
def getDayName (dayNumber : Nat) : String :=
  if dayNumber = 2 then "Thứ 2"
  else if dayNumber = 3 then "Thứ 3"
  else if dayNumber = 4 then "Thứ 4"
  else if dayNumber = 5 then "Thứ 5"
  else if dayNumber = 6 then "Thứ 6"
  else if dayNumber = 7 then "Thứ 7"
  else ""

/-! ## Activity records -/

/-- The activity record, restricted to the fields the verified core reads.
Free-text fields are `Option (List Char)` (`none` = absent); durations are
`Option Int` (`none` = absent / non-numeric, see file header). -/
structure Activity where
  id : Nat := 0
  priority : String := ""
  estimatedDuration : Option Int := none
  topic : Option (List Char) := none
  content : Option (List Char) := none
  courseName : Option (List Char) := none
  name : Option (List Char) := none
  scheduledTime : Option Int := none
  scheduledEndTime : Option Int := none
  deriving DecidableEq, Repr

/-- A `{startTime, endTime}` time slot, in minutes since midnight. -/
structure TimeSlotRec where
  startTime : Int
  endTime : Int
  deriving DecidableEq, Repr

/-- The duration the scheduler uses: `activity.estimatedDuration || 30`
(ActivityScheduler.js line 30): absent, NaN and 0 are falsy, so all
default to 30. -/
def schedulerDuration (a : Activity) : Int :=
  match a.estimatedDuration with
  | none => 30
  | some d => if d = 0 then 30 else d

/-- The duration the capacity validator uses:
`parseInt(a.estimatedDuration) || 0` (ScheduleValidator.js line 210):
absent/NaN parse to NaN which defaults to 0. -/
def capacityDuration (a : Activity) : Int :=
  match a.estimatedDuration with
  | none => 0
  | some d => if d = 0 then 0 else d

/-! ## ScheduleValidator.validateTimeSlotCapacity (C6) -/

/-- Result of `validateTimeSlotCapacity`.  The source returns one of two
object shapes: an early error object `{isValid:false, canFit:false,
errors}` (when the slot is unusable) or the full report. -/
inductive CapacityResult where
  | slotError : CapacityResult
  | report (canFit : Bool) (totalDuration availableTime breakTime requiredTime
      remainingTime overflow : Int) : CapacityResult
  deriving DecidableEq, Repr

/-- The `canFit` field of either result shape (false on the error shape). -/
def CapacityResult.canFitOf : CapacityResult → Bool
  | .slotError => false
  | .report c _ _ _ _ _ _ => c

/-- `ScheduleValidator.validateTimeSlotCapacity`.  The model's
`TimeSlotRec` always carries both times, so only the `availableTime <= 0`
early return is reachable. -/
def validateTimeSlotCapacity (activities : List Activity) (timeSlot : TimeSlotRec) :
    CapacityResult :=
  let totalDuration := activities.foldl (fun sum a => sum + capacityDuration a) 0
  let availableTime := timeSlot.endTime - timeSlot.startTime
  if availableTime ≤ 0 then .slotError
  else
    let breakTime := max 0 (((activities.length : Int) - 1) * 10)
    let requiredTime := totalDuration + breakTime
    .report (if requiredTime ≤ availableTime then true else false)
      totalDuration availableTime breakTime requiredTime
      (availableTime - requiredTime)
      (if requiredTime ≤ availableTime then 0 else requiredTime - availableTime)

/-- The spec's capacity formula `sum(durations) + max(0, (count-1)*10)`,
written from the claim's words, for comparison with the code. -/
def requiredTimeSpec (activities : List Activity) : Int :=
  activities.foldl (fun sum a => sum + capacityDuration a) 0 +
    max 0 (((activities.length : Int) - 1) * 10)

/-- The spec's available time: slot end minus start, in minutes. -/
def availableTimeSpec (timeSlot : TimeSlotRec) : Int :=
  timeSlot.endTime - timeSlot.startTime

theorem max_zero_sub_eq (a b : Int) :
    (if a ≤ b then (0 : Int) else a - b) = max 0 (a - b) := by
  split <;> omega

/-- C6 counterexample: on an empty activity list and a zero-length window
(08:00–08:00), `requiredTime = 0 ≤ 0 = availableTime`, yet the validator
takes the `availableTime <= 0` early return and reports `canFit = false` —
so "canFit exactly when requiredTime ≤ availableTime" fails as stated. -/
theorem C6_capacity_counterexample :
    (validateTimeSlotCapacity [] ⟨480, 480⟩).canFitOf = false ∧
      requiredTimeSpec [] ≤ availableTimeSpec ⟨480, 480⟩ := by
  constructor
  · rfl
  · simp [requiredTimeSpec, availableTimeSpec]

/-- C6 (amended): provided the slot's available time is positive, the
validator reports `requiredTime = sum(durations) + max(0,(count-1)*10)`,
`canFit ⟺ requiredTime ≤ availableTime`, and
`overflow = max(0, requiredTime - availableTime)`; in particular three
30-minute activities in a 100-minute window give requiredTime 110,
canFit false, overflow 10. -/
theorem C6_capacity (activities : List Activity) (timeSlot : TimeSlotRec)
    (hpos : 0 < availableTimeSpec timeSlot) :
    validateTimeSlotCapacity activities timeSlot =
      .report (decide (requiredTimeSpec activities ≤ availableTimeSpec timeSlot))
        (activities.foldl (fun sum a => sum + capacityDuration a) 0)
        (availableTimeSpec timeSlot)
        (max 0 (((activities.length : Int) - 1) * 10))
        (requiredTimeSpec activities)
        (availableTimeSpec timeSlot - requiredTimeSpec activities)
        (max 0 (requiredTimeSpec activities - availableTimeSpec timeSlot)) ∧
      validateTimeSlotCapacity
          [{ estimatedDuration := some 30 }, { estimatedDuration := some 30 },
            { estimatedDuration := some 30 }] ⟨0, 100⟩ =
        .report false 90 100 20 110 (-10) 10 := by
  refine ⟨?_, by decide⟩
  unfold validateTimeSlotCapacity requiredTimeSpec availableTimeSpec
  unfold availableTimeSpec at hpos
  rw [if_neg (by omega)]
  rw [← max_zero_sub_eq]
  rcases le_or_lt
      (activities.foldl (fun sum a => sum + capacityDuration a) 0 +
        max 0 (((activities.length : Int) - 1) * 10))
      (timeSlot.endTime - timeSlot.startTime) with h | h
  · simp [h]
  · simp [not_le.mpr h, Int.not_le.mpr h]

/-- C6 witness: the amended theorem applied to the 3×30-in-100 example. -/
theorem C6_capacity_witness :
    (0 : Int) < availableTimeSpec ⟨0, 100⟩ ∧
      validateTimeSlotCapacity
          [{ estimatedDuration := some 30 }, { estimatedDuration := some 30 },
            { estimatedDuration := some 30 }] ⟨0, 100⟩ =
        .report false 90 100 20 110 (-10) 10 :=
  ⟨by decide,
    (C6_capacity [{ estimatedDuration := some 30 }, { estimatedDuration := some 30 },
      { estimatedDuration := some 30 }] ⟨0, 100⟩ (by decide)).2⟩

/-! ## ActivityScheduler.scheduleActivities (C3, C10) -/

/-- `priorityOrder[p] || 0` with `priorityOrder = (high:3, medium:2, low:1)`;
an unknown/absent priority weighs 0. -/
def priorityWeight (p : String) : Nat :=
  if p = "high" then 3 else if p = "medium" then 2 else if p = "low" then 1 else 0

/-- Insert into an already weight-descending list, after all elements of
greater-or-equal weight (the stable position). -/
def insertByWeight (a : Activity) : List Activity → List Activity
  | [] => [a]
  | b :: t =>
    if priorityWeight b.priority ≤ priorityWeight a.priority then a :: b :: t
    else b :: insertByWeight a t

/-- The sort `[...activities].sort((a,b) => w(b) - w(a))` of the source.
ECMAScript `Array.prototype.sort` is specified stable with a consistent
comparator, so its result is the unique weight-descending permutation that
keeps ties in input order; this insertion sort computes exactly that
permutation. -/
def sortByWeightDesc : List Activity → List Activity
  | [] => []
  | a :: t => insertByWeight a (sortByWeightDesc t)

/-- The cursor loop of `scheduleActivities` (ActivityScheduler.js 29–52):
walk the sorted list; a fitting activity is stamped and the cursor
advances by duration + 10 (the fixed break); the first non-fitting
activity is placed clipped if its duration is ≤ 15, then the loop breaks. -/
def schedLoop (endTime : Int) : Int → List Activity → List Activity
  | _, [] => []
  | currentTime, a :: rest =>
    let duration := schedulerDuration a
    if endTime < currentTime + duration then
      if duration ≤ 15 then
        [{ a with
            scheduledTime := some currentTime,
            scheduledEndTime := some (min (currentTime + duration) endTime) }]
      else []
    else
      { a with
          scheduledTime := some currentTime,
          scheduledEndTime := some (currentTime + duration) } ::
        schedLoop endTime (currentTime + duration + 10) rest

/-- `ActivityScheduler.scheduleActivities`. -/
def scheduleActivities (activities : List Activity) (timeSlot : TimeSlotRec) :
    List Activity :=
  if activities = [] then []
  else schedLoop timeSlot.endTime timeSlot.startTime (sortByWeightDesc activities)

/-- One weight class of the input, in input order. -/
def fw (w : Nat) (l : List Activity) : List Activity :=
  l.filter (fun a => priorityWeight a.priority == w)

/-- The ordering described by the claim, written from its words:
descending priority weight (3, 2, 1, then weight 0) with ties keeping
their original relative order — i.e. the weight classes concatenated in
descending order, each in input order. -/
def claimSortedByPriority (acts : List Activity) : List Activity :=
  fw 3 acts ++ fw 2 acts ++ fw 1 acts ++ fw 0 acts

/-- The walk described by the claim, written from its words: place at the
cursor with end = cursor + duration and advance by duration + 10 while the
activity fits; at the first activity that does not fit, place it clipped
to the remaining window if its duration is at most 15 minutes, and in
either case stop. -/
def claimWalk (endTime : Int) : Int → List Activity → List Activity
  | _, [] => []
  | cursor, a :: rest =>
    let duration := schedulerDuration a
    if cursor + duration ≤ endTime then
      { a with
          scheduledTime := some cursor,
          scheduledEndTime := some (cursor + duration) } ::
        claimWalk endTime (cursor + duration + 10) rest
    else if duration ≤ 15 then
      [{ a with
          scheduledTime := some cursor,
          scheduledEndTime := some (min (cursor + duration) endTime) }]
    else []

/-- C3's description of the whole scheduler, assembled from the claim's
words. -/
def claimScheduleActivities (acts : List Activity) (slot : TimeSlotRec) :
    List Activity :=
  claimWalk slot.endTime slot.startTime (claimSortedByPriority acts)

theorem priorityWeight_le_three (p : String) : priorityWeight p ≤ 3 := by
  unfold priorityWeight; split_ifs <;> omega

theorem priorityWeight_cases (p : String) :
    priorityWeight p = 3 ∨ priorityWeight p = 2 ∨ priorityWeight p = 1 ∨
      priorityWeight p = 0 := by
  unfold priorityWeight; split_ifs <;> omega

theorem insertByWeight_front (a : Activity) (L : List Activity)
    (h : ∀ x ∈ L, priorityWeight x.priority ≤ priorityWeight a.priority) :
    insertByWeight a L = a :: L := by
  cases L with
  | nil => rfl
  | cons b t =>
    unfold insertByWeight
    rw [if_pos (h b (List.mem_cons_self b t))]

theorem insertByWeight_append (a : Activity) (xs ys : List Activity)
    (h : ∀ x ∈ xs, priorityWeight a.priority < priorityWeight x.priority) :
    insertByWeight a (xs ++ ys) = xs ++ insertByWeight a ys := by
  induction xs with
  | nil => rfl
  | cons x t ih =>
    have hx := h x (List.mem_cons_self x t)
    rw [List.cons_append]
    conv_lhs => rw [insertByWeight]
    rw [if_neg (by omega)]
    rw [ih (fun y hy => h y (List.mem_cons_of_mem x hy))]
    rfl

theorem mem_fw {w : Nat} {x : Activity} {l : List Activity}
    (hx : x ∈ fw w l) : priorityWeight x.priority = w := by
  have := (List.mem_filter.mp hx).2
  simpa using this

theorem fw_cons_eq {w : Nat} (a : Activity) (t : List Activity)
    (hw : priorityWeight a.priority = w) : fw w (a :: t) = a :: fw w t := by
  simp [fw, List.filter_cons, hw]

theorem fw_cons_ne {w : Nat} (a : Activity) (t : List Activity)
    (hw : priorityWeight a.priority ≠ w) : fw w (a :: t) = fw w t := by
  simp [fw, List.filter_cons, hw]

theorem sortByWeightDesc_eq_claim (l : List Activity) :
    sortByWeightDesc l = claimSortedByPriority l := by
  induction l with
  | nil => rfl
  | cons a t ih =>
    show insertByWeight a (sortByWeightDesc t) = _
    rw [ih]
    unfold claimSortedByPriority
    simp only [List.append_assoc]
    rcases priorityWeight_cases a.priority with hw | hw | hw | hw
    · rw [insertByWeight_front _ _
        (fun x _ => by rw [hw]; exact priorityWeight_le_three _)]
      rw [fw_cons_eq a t hw, fw_cons_ne a t (by omega), fw_cons_ne a t (by omega),
        fw_cons_ne a t (by omega)]
      simp
    · rw [insertByWeight_append a _ _ (fun x hx => by rw [hw, mem_fw hx]; omega)]
      rw [insertByWeight_front _ _ ?_]
      · rw [fw_cons_ne a t (by omega), fw_cons_eq a t hw, fw_cons_ne a t (by omega),
          fw_cons_ne a t (by omega)]
        simp
      · intro x hx
        rcases List.mem_append.mp hx with hx | hx
        · rw [hw, mem_fw hx]
        · rcases List.mem_append.mp hx with hx | hx <;> (rw [hw, mem_fw hx]; omega)
    · rw [insertByWeight_append a _ _ (fun x hx => by rw [hw, mem_fw hx]; omega)]
      rw [insertByWeight_append a _ _ (fun x hx => by rw [hw, mem_fw hx]; omega)]
      rw [insertByWeight_front _ _ ?_]
      · rw [fw_cons_ne a t (by omega), fw_cons_ne a t (by omega), fw_cons_eq a t hw,
          fw_cons_ne a t (by omega)]
        simp
      · intro x hx
        rcases List.mem_append.mp hx with hx | hx <;> (rw [hw, mem_fw hx]; try omega)
    · rw [insertByWeight_append a _ _ (fun x hx => by rw [hw, mem_fw hx]; omega)]
      rw [insertByWeight_append a _ _ (fun x hx => by rw [hw, mem_fw hx]; omega)]
      rw [insertByWeight_append a _ _ (fun x hx => by rw [hw, mem_fw hx]; omega)]
      rw [insertByWeight_front _ _ (fun x hx => by rw [hw, mem_fw hx])]
      rw [fw_cons_ne a t (by omega), fw_cons_ne a t (by omega),
        fw_cons_ne a t (by omega), fw_cons_eq a t hw]

theorem schedLoop_eq_claimWalk (endTime : Int) (cur : Int) (l : List Activity) :
    schedLoop endTime cur l = claimWalk endTime cur l := by
  induction l generalizing cur with
  | nil => rfl
  | cons a rest ih =>
    simp only [schedLoop, claimWalk]
    rcases le_or_lt (cur + schedulerDuration a) endTime with h | h
    · rw [if_neg (show ¬ endTime < cur + schedulerDuration a by omega),
        if_pos (show cur + schedulerDuration a ≤ endTime from h), ih]
    · rw [if_pos (show endTime < cur + schedulerDuration a from h),
        if_neg (show ¬ cur + schedulerDuration a ≤ endTime by omega)]

/-- C3: the scheduler equals, on every input, the claim's description:
activities are processed in descending priority weight with ties in input
order; each placed activity is stamped `scheduledTime = cursor` and
`scheduledEndTime = cursor + duration`, the cursor advancing by duration
plus the fixed 10-minute break; the first activity that does not fit is
placed clipped to the remaining window if its duration is ≤ 15 minutes,
and the loop then stops, dropping any remaining activities; the function
is total (no exception for omitted activities). -/
theorem C3_scheduler_refines_claim (activities : List Activity)
    (timeSlot : TimeSlotRec) :
    scheduleActivities activities timeSlot =
      claimScheduleActivities activities timeSlot := by
  unfold scheduleActivities claimScheduleActivities
  split
  · subst activities; rfl
  · rw [sortByWeightDesc_eq_claim, schedLoop_eq_claimWalk]

/-! ## C10: default duration disagreement between scheduler and validator -/

/-- C10: an activity whose `estimatedDuration` is missing (or `NaN`, both
modelled by `none`) or zero is scheduled with the 30-minute default — its
stamped window is `[start, start+30]` — while the capacity validator
counts 0 minutes for it: a one-element list needs `requiredTime = 0`. -/
theorem C10_duration_disagreement (a : Activity) (slot : TimeSlotRec)
    (hd : a.estimatedDuration = none ∨ a.estimatedDuration = some 0)
    (hfit : slot.startTime + 30 ≤ slot.endTime) :
    schedulerDuration a = 30 ∧ capacityDuration a = 0 ∧
      scheduleActivities [a] slot =
        [{ a with
            scheduledTime := some slot.startTime,
            scheduledEndTime := some (slot.startTime + 30) }] ∧
      validateTimeSlotCapacity [a] slot =
        .report true 0 (slot.endTime - slot.startTime) 0 0
          (slot.endTime - slot.startTime) 0 := by
  have h30 : schedulerDuration a = 30 := by
    rcases hd with hd | hd <;> simp [schedulerDuration, hd]
  have h0 : capacityDuration a = 0 := by
    rcases hd with hd | hd <;> simp [capacityDuration, hd]
  refine ⟨h30, h0, ?_, ?_⟩
  · unfold scheduleActivities
    rw [if_neg (by simp)]
    show schedLoop slot.endTime slot.startTime
        (insertByWeight a (sortByWeightDesc [])) = _
    unfold sortByWeightDesc insertByWeight schedLoop
    rw [h30, if_neg (by omega)]
    rfl
  · unfold validateTimeSlotCapacity
    rw [if_neg (by omega)]
    simp [h0]
    omega

/-- C10 witness: a concrete activity with absent duration in the slot
[0, 100]. -/
theorem C10_duration_disagreement_witness :
    schedulerDuration { estimatedDuration := none } = 30 ∧
      capacityDuration { estimatedDuration := none } = 0 ∧
      scheduleActivities [{ estimatedDuration := none }] ⟨0, 100⟩ =
        [{ estimatedDuration := none, scheduledTime := some 0,
            scheduledEndTime := some 30 }] ∧
      validateTimeSlotCapacity [{ estimatedDuration := none }] ⟨0, 100⟩ =
        .report true 0 100 0 0 100 0 :=
  C10_duration_disagreement { estimatedDuration := none } ⟨0, 100⟩
    (Or.inl rfl) (by decide)

/-! ## C7: the period time table -/

/-- C7 counterexample: the claim says periods 1–5 run "contiguously ...
with no gaps modeled between consecutive periods", but period 1 ends at
7:50 while period 2 starts at 8:00 — a 10-minute gap. -/
theorem C7_gap_counterexample :
    timeToMinutes (getTimeSlot 1).stop ≠ timeToMinutes (getTimeSlot 2).start := by
  decide

/-- C7 (amended): periods 1–5 are 50-minute blocks starting on the hour
from 7:00 (so spanning 7:00–11:50 with a 10-minute gap between consecutive
blocks), periods 6–10 are 50-minute blocks starting on the half hour from
12:30 (spanning 12:30–17:20, again with 10-minute gaps), and any period
outside 1–10 (resp. day outside 2–7) yields the empty sentinel rather than
an error. -/
theorem C7_period_table :
    (∀ p, 1 ≤ p → p ≤ 5 →
      timeToMinutes (getTimeSlot p).start = 420 + (p - 1) * 60 ∧
      timeToMinutes (getTimeSlot p).stop = 420 + (p - 1) * 60 + 50) ∧
    (∀ p, 6 ≤ p → p ≤ 10 →
      timeToMinutes (getTimeSlot p).start = 750 + (p - 6) * 60 ∧
      timeToMinutes (getTimeSlot p).stop = 750 + (p - 6) * 60 + 50) ∧
    (∀ p, p = 0 ∨ 11 ≤ p → getTimeSlot p = ⟨"", ""⟩) ∧
    (∀ d, 2 ≤ d → d ≤ 7 → getDayName d = "Thứ " ++ toString d) ∧
    (∀ d, d < 2 ∨ 8 ≤ d → getDayName d = "") := by
  refine ⟨?_, ?_, ?_, ?_, ?_⟩
  · intro p h1 h2; interval_cases p <;> exact ⟨by decide, by decide⟩
  · intro p h1 h2; interval_cases p <;> exact ⟨by decide, by decide⟩
  · intro p hp
    unfold getTimeSlot
    rcases hp with h | h <;>
      simp only [if_neg (by omega : ¬ p = 1), if_neg (by omega : ¬ p = 2),
        if_neg (by omega : ¬ p = 3), if_neg (by omega : ¬ p = 4),
        if_neg (by omega : ¬ p = 5), if_neg (by omega : ¬ p = 6),
        if_neg (by omega : ¬ p = 7), if_neg (by omega : ¬ p = 8),
        if_neg (by omega : ¬ p = 9), if_neg (by omega : ¬ p = 10)]
  · intro d h1 h2; interval_cases d <;> decide
  · intro d hd
    unfold getDayName
    rcases hd with h | h <;>
      simp only [if_neg (by omega : ¬ d = 2), if_neg (by omega : ¬ d = 3),
        if_neg (by omega : ¬ d = 4), if_neg (by omega : ¬ d = 5),
        if_neg (by omega : ¬ d = 6), if_neg (by omega : ¬ d = 7)]

/-- C7 witness: the amended table evaluated at periods 1, 6, 11 and days
2, 8. -/
theorem C7_period_table_witness :
    timeToMinutes (getTimeSlot 1).start = 420 ∧
      timeToMinutes (getTimeSlot 6).start = 750 ∧
      getTimeSlot 11 = ⟨"", ""⟩ ∧
      getDayName 2 = "Thứ " ++ toString 2 ∧ getDayName 8 = "" :=
  ⟨(C7_period_table.1 1 (by decide) (by decide)).1,
    (C7_period_table.2.1 6 (by decide) (by decide)).1,
    C7_period_table.2.2.1 11 (Or.inr (by decide)),
    C7_period_table.2.2.2.1 2 (by decide) (by decide),
    C7_period_table.2.2.2.2 8 (Or.inr (by decide))⟩

/-! ## Schedule entries, courses and imports -/

/-- One parsed schedule entry `{day, periods, room}` as produced by
`parseSingleScheduleEntry`: `day` is `null` (`none`) or the validated day
number, `periods` the expanded period list, `room` the matched room text. -/
structure RawEntry where
  day : Option Nat
  periods : List Nat
  room : List Char
  deriving DecidableEq, Repr

/-- A processed course, restricted to the fields the verified core reads:
its identifier and its `scheduleInfo` array of parsed entries. -/
structure Course where
  cid : Nat := 0
  scheduleInfo : List RawEntry := []
  deriving DecidableEq, Repr

/-- A persisted schedule record (`ScheduleImport`), restricted to the
fields `getClassScheduleForDate` reads.  The JS field `type` is a Lean
keyword, rendered `rtype`; `createdAt` is an abstract timestamp. -/
structure ImportRecord where
  rtype : String := "class"
  createdAt : Nat := 0
  courses : List Course := []
  deriving DecidableEq, Repr

/-! ## DailyActivityManager.getClassScheduleForDate (C2) -/

/-- `const dayNumber = dayOfWeek === 0 ? 7 : dayOfWeek` [DailyActivityManager.js
line 18], applied to `date.getDay()` (0 = Sunday, 1 = Monday, …,
6 = Saturday). -/
def resolveDayNumber (dayOfWeek : Nat) : Nat :=
  if dayOfWeek = 0 then 7 else dayOfWeek

/-- `classSchedules.sort((a,b) => createdAt of b - createdAt of a)[0]`:
the head of the stable descending sort is the first record carrying the
maximal `createdAt`, which this fold computes directly. -/
def latestClassSchedule (schedules : List ImportRecord) : Option ImportRecord :=
  (schedules.filter (fun s => s.rtype = "class")).foldl
    (fun best s =>
      match best with
      | none => some s
      | some b => if b.createdAt < s.createdAt then some s else some b)
    none

/-- `DailyActivityManager.getClassScheduleForDate`, up to and including
the `dayCourses` filter.  The trailing `.map` only annotates each
returned course with derived times; which courses are returned — the
subject of C2 — is decided here. -/
def getClassScheduleForDate (schedules : List ImportRecord) (dayOfWeek : Nat) :
    List Course :=
  let dayNumber := resolveDayNumber dayOfWeek
  match latestClassSchedule schedules with
  | none => []
  | some latest =>
    latest.courses.filter (fun c =>
      c.scheduleInfo.any (fun e => e.day == some dayNumber))

/-- A course meeting on Monday: its schedule entry carries domain day 2
(the 2=Monday … 7=Saturday convention of the parser and the grid). -/
def mondayCourse : Course :=
  { cid := 1, scheduleInfo := [⟨some 2, [1, 2], ['A', '1']⟩] }

/-- A class-type import whose only course meets on Monday. -/
def mondayImport : ImportRecord :=
  { rtype := "class", createdAt := 5, courses := [mondayCourse] }

/-- C2 (code bug): on a Monday (`date.getDay() = 1`, e.g. 2024-01-01) the
code resolves the day to 1 — not to 2 as the 2=Monday … 7=Saturday
convention demands and as the source's own comment
("Convert: CN=7, T2=2, ..., T7=7") documents — so the Monday course (day
2) is not returned on Monday; instead it is returned on Tuesday
(`getDay() = 2`).  Only Sunday (0 ↦ 7) matches the claim. -/
theorem C2_monday_code_bug :
    resolveDayNumber 1 = 1 ∧ resolveDayNumber 1 ≠ 2 ∧
      getClassScheduleForDate [mondayImport] 1 = [] ∧
      getClassScheduleForDate [mondayImport] 2 = [mondayCourse] ∧
      resolveDayNumber 0 = 7 := by
  refine ⟨rfl, by decide, ?_, ?_, rfl⟩ <;> decide

/-! ## DailyActivityManager.calculateTimeSlots (C5) -/

/-- A class occurrence as produced by `getClassScheduleForDate`'s
annotation step: derived start and end times, in minutes. -/
structure CourseOcc where
  startTime : Int
  endTime : Int
  deriving DecidableEq, Repr

/-- One output slot `{startTime, endTime, duration}`, in minutes. -/
structure SlotOut where
  startTime : Int
  endTime : Int
  duration : Int
  deriving DecidableEq, Repr

/-- Result of `calculateTimeSlots`. -/
structure SlotsResult where
  hasClassToday : Bool
  morningSlot : SlotOut
  afternoonSlot : SlotOut
  classCourses : List CourseOcc
  deriving DecidableEq, Repr

/-- `DailyActivityManager.calculateTimeSlots`, over the day's class list
(the `classCourses` parameter of the source).  Wake = 05:00 = 300,
sleep = 23:00 = 1380, split = 12:00 = 720; `reduce` without an initial
value starts from the first element and, with the strict comparisons of
the source, keeps the earliest element on ties. -/
def calculateTimeSlots (classCourses : List CourseOcc) : SlotsResult :=
  match classCourses with
  | [] =>
    { hasClassToday := false,
      morningSlot := ⟨300, 720, 720 - 300⟩,
      afternoonSlot := ⟨720, 1380, 1380 - 720⟩,
      classCourses := [] }
  | c :: rest =>
    let earliestClass :=
      rest.foldl (fun earliest course =>
        if course.startTime < earliest.startTime then course else earliest) c
    let latestClass :=
      rest.foldl (fun latest course =>
        if latest.endTime < course.endTime then course else latest) c
    let morningEnd := earliestClass.startTime - 30
    let afternoonStart := latestClass.endTime + 30
    { hasClassToday := true,
      morningSlot := ⟨300, morningEnd, morningEnd - 300⟩,
      afternoonSlot := ⟨afternoonStart, 1380, 1380 - afternoonStart⟩,
      classCourses := c :: rest }

theorem foldl_earliest_spec (c : CourseOcc) (rest : List CourseOcc) :
    rest.foldl (fun earliest course =>
        if course.startTime < earliest.startTime then course else earliest) c
        ∈ c :: rest ∧
      ∀ x ∈ c :: rest,
        (rest.foldl (fun earliest course =>
          if course.startTime < earliest.startTime then course else earliest)
            c).startTime ≤ x.startTime := by
  induction rest generalizing c with
  | nil => exact ⟨List.mem_cons_self c [], by intro x hx; simp at hx; simp [hx]⟩
  | cons y t ih =>
    rw [List.foldl_cons]
    by_cases hyc : y.startTime < c.startTime
    · rw [if_pos hyc]
      rcases ih y with ⟨hmem, hbd⟩
      refine ⟨List.mem_cons_of_mem _ hmem, ?_⟩
      intro x hx
      rcases List.mem_cons.mp hx with h | h
      · subst h
        have := hbd _ (List.mem_cons_self _ _)
        omega
      · exact hbd _ h
    · rw [if_neg hyc]
      rcases ih c with ⟨hmem, hbd⟩
      constructor
      · rcases List.mem_cons.mp hmem with h | h
        · rw [h]; exact List.mem_cons_self _ _
        · exact List.mem_cons_of_mem _ (List.mem_cons_of_mem _ h)
      · intro x hx
        rcases List.mem_cons.mp hx with h | h
        · subst h; exact hbd _ (List.mem_cons_self _ _)
        · rcases List.mem_cons.mp h with h | h
          · subst h
            have := hbd _ (List.mem_cons_self _ _)
            omega
          · exact hbd _ (List.mem_cons_of_mem _ h)

theorem foldl_latest_spec (c : CourseOcc) (rest : List CourseOcc) :
    rest.foldl (fun latest course =>
        if latest.endTime < course.endTime then course else latest) c
        ∈ c :: rest ∧
      ∀ x ∈ c :: rest,
        x.endTime ≤ (rest.foldl (fun latest course =>
          if latest.endTime < course.endTime then course else latest) c).endTime := by
  induction rest generalizing c with
  | nil => exact ⟨List.mem_cons_self c [], by intro x hx; simp at hx; simp [hx]⟩
  | cons y t ih =>
    rw [List.foldl_cons]
    by_cases hyc : c.endTime < y.endTime
    · rw [if_pos hyc]
      rcases ih y with ⟨hmem, hbd⟩
      refine ⟨List.mem_cons_of_mem _ hmem, ?_⟩
      intro x hx
      rcases List.mem_cons.mp hx with h | h
      · subst h
        have := hbd _ (List.mem_cons_self _ _)
        omega
      · exact hbd _ h
    · rw [if_neg hyc]
      rcases ih c with ⟨hmem, hbd⟩
      constructor
      · rcases List.mem_cons.mp hmem with h | h
        · rw [h]; exact List.mem_cons_self _ _
        · exact List.mem_cons_of_mem _ (List.mem_cons_of_mem _ h)
      · intro x hx
        rcases List.mem_cons.mp hx with h | h
        · subst h; exact hbd _ (List.mem_cons_self _ _)
        · rcases List.mem_cons.mp h with h | h
          · subst h
            have := hbd _ (List.mem_cons_self _ _)
            omega
          · exact hbd _ (List.mem_cons_of_mem _ h)

/-- C5: with no classes the slots are 05:00–12:00 (420 min) and
12:00–23:00 (660 min); with at least one class the morning slot runs from
05:00 (300) to the earliest class start minus 30 and the afternoon slot
from the latest class end plus 30 to 23:00 (1380), durations being end
minus start. -/
theorem C5_time_slots (classCourses : List CourseOcc) :
    calculateTimeSlots [] =
      { hasClassToday := false, morningSlot := ⟨300, 720, 420⟩,
        afternoonSlot := ⟨720, 1380, 660⟩, classCourses := [] } ∧
    (classCourses ≠ [] →
      (calculateTimeSlots classCourses).hasClassToday = true ∧
      (calculateTimeSlots classCourses).morningSlot.startTime = 300 ∧
      (calculateTimeSlots classCourses).afternoonSlot.endTime = 1380 ∧
      (∃ c ∈ classCourses,
        (calculateTimeSlots classCourses).morningSlot.endTime =
            c.startTime - 30 ∧
          ∀ x ∈ classCourses, c.startTime ≤ x.startTime) ∧
      (∃ c ∈ classCourses,
        (calculateTimeSlots classCourses).afternoonSlot.startTime =
            c.endTime + 30 ∧
          ∀ x ∈ classCourses, x.endTime ≤ c.endTime) ∧
      (calculateTimeSlots classCourses).morningSlot.duration =
        (calculateTimeSlots classCourses).morningSlot.endTime - 300 ∧
      (calculateTimeSlots classCourses).afternoonSlot.duration =
        1380 - (calculateTimeSlots classCourses).afternoonSlot.startTime) := by
  refine ⟨rfl, ?_⟩
  intro hne
  match classCourses with
  | [] => exact absurd rfl hne
  | c :: rest =>
    rcases foldl_earliest_spec c rest with ⟨hemem, hebd⟩
    rcases foldl_latest_spec c rest with ⟨hlmem, hlbd⟩
    refine ⟨rfl, rfl, rfl, ⟨_, hemem, rfl, hebd⟩, ⟨_, hlmem, rfl, hlbd⟩, rfl, rfl⟩

/-- C5 witness: one class 08:00–09:50 (480–590): morning ends 07:30 (450),
afternoon starts 10:20 (620); and the no-class slots. -/
theorem C5_time_slots_witness :
    calculateTimeSlots [] =
      { hasClassToday := false, morningSlot := ⟨300, 720, 420⟩,
        afternoonSlot := ⟨720, 1380, 660⟩, classCourses := [] } ∧
      (calculateTimeSlots [⟨480, 590⟩]).morningSlot.endTime = 480 - 30 ∧
      (calculateTimeSlots [⟨480, 590⟩]).afternoonSlot.startTime = 590 + 30 :=
  ⟨(C5_time_slots []).1,
    by
      rcases (C5_time_slots [⟨480, 590⟩]).2 (by decide) with
        ⟨-, -, -, ⟨c, hc, he, -⟩, ⟨d, hd, hl, -⟩, -, -⟩
      simp only [List.mem_singleton] at hc hd
      rw [he, hl, hc, hd]
      exact ⟨rfl, rfl⟩⟩

/-! ## The weekly grid projection (scheduleRenderer.renderWeeklySchedule, C1)

The live weekly grid is the `scheduleMap` built inside
`renderWeeklySchedule` (scheduleRenderer.js 122–215): for every course,
for every entry of its `scheduleInfo` array, for every period of the
entry, the course is pushed into cell `(period, day)` after validating
`2 ≤ day ≤ 7` and `1 ≤ period ≤ 10`.  (The older
`ScheduleManager.generateWeeklySchedule`, which reads `scheduleInfo` as a
single object, is dead code superseded by this map — the renderer
explicitly rebuilds from `courses` on every render.) -/

/-- The grid: cell `(p, d)` holds the courses pushed into it, in push
order. -/
abbrev Grid := Nat → Nat → List Course

/-- `scheduleMap[p][d].push(course)`. -/
def pushCell (g : Grid) (p d : Nat) (c : Course) : Grid :=
  fun p2 d2 => if p2 = p ∧ d2 = d then g p2 d2 ++ [c] else g p2 d2

/-- The inner `periods.forEach` loop: push into `(p, day)` when
`1 ≤ p ≤ 10` and `2 ≤ day ≤ 7`. -/
def addEntryPeriods (c : Course) (day : Nat) (periods : List Nat) (g : Grid) :
    Grid :=
  periods.foldl (fun g2 p =>
    if 1 ≤ p ∧ p ≤ 10 ∧ 2 ≤ day ∧ day ≤ 7 then pushCell g2 p day c else g2) g

/-- One `scheduleInfo` entry: skipped when its day is absent/invalid or it
has no periods, else its periods are pushed. -/
def addEntry (g : Grid) (c : Course) (e : RawEntry) : Grid :=
  match e.day with
  | none => g
  | some day =>
    if day < 2 ∨ 7 < day then g
    else if e.periods.isEmpty then g
    else addEntryPeriods c day e.periods g

/-- The `scheduleMap` construction of `renderWeeklySchedule`: start from
the empty 10×6 map and process every course's entries in order. -/
def scheduleMap (courses : List Course) : Grid :=
  courses.foldl
    (fun g course => course.scheduleInfo.foldl (fun g2 e => addEntry g2 course e) g)
    (fun _ _ => [])

theorem mem_pushCell {g : Grid} {p0 d0 : Nat} {c x : Course} {p d : Nat} :
    x ∈ pushCell g p0 d0 c p d ↔ x ∈ g p d ∨ (p = p0 ∧ d = d0 ∧ x = c) := by
  unfold pushCell
  by_cases h : p = p0 ∧ d = d0
  · obtain ⟨h1, h2⟩ := h
    subst h1; subst h2
    rw [if_pos ⟨rfl, rfl⟩]
    simp
  · rw [if_neg h]
    constructor
    · exact Or.inl
    · rintro (hg | ⟨h1, h2, _⟩)
      · exact hg
      · exact absurd ⟨h1, h2⟩ h

theorem mem_addEntryPeriods {c : Course} {day : Nat} (periods : List Nat)
    {g : Grid} {x : Course} {p d : Nat} :
    x ∈ addEntryPeriods c day periods g p d ↔
      x ∈ g p d ∨ (p ∈ periods ∧ 1 ≤ p ∧ p ≤ 10 ∧ d = day ∧ 2 ≤ day ∧ day ≤ 7 ∧
        x = c) := by
  induction periods generalizing g with
  | nil => simp [addEntryPeriods]
  | cons q t ih =>
    have step : addEntryPeriods c day (q :: t) g =
        addEntryPeriods c day t
          (if 1 ≤ q ∧ q ≤ 10 ∧ 2 ≤ day ∧ day ≤ 7 then pushCell g q day c else g) :=
      rfl
    rw [step, ih]
    by_cases hq : 1 ≤ q ∧ q ≤ 10 ∧ 2 ≤ day ∧ day ≤ 7
    · rw [if_pos hq, mem_pushCell]
      constructor
      · rintro ((hg | ⟨hpq, hdday, hxc⟩) | ⟨hpt, h1, h2, hd, h3, h4, hxc⟩)
        · exact Or.inl hg
        · subst hpq; subst hdday; subst hxc
          exact Or.inr ⟨List.mem_cons_self _ _, hq.1, hq.2.1, rfl, hq.2.2.1,
            hq.2.2.2, rfl⟩
        · exact Or.inr ⟨List.mem_cons_of_mem _ hpt, h1, h2, hd, h3, h4, hxc⟩
      · rintro (hg | ⟨hpqt, h1, h2, hd, h3, h4, hxc⟩)
        · exact Or.inl (Or.inl hg)
        · rcases List.mem_cons.mp hpqt with hpq | hpt
          · exact Or.inl (Or.inr ⟨hpq, hd, hxc⟩)
          · exact Or.inr ⟨hpt, h1, h2, hd, h3, h4, hxc⟩
    · rw [if_neg hq]
      constructor
      · rintro (hg | ⟨hpt, h1, h2, hd, h3, h4, hxc⟩)
        · exact Or.inl hg
        · exact Or.inr ⟨List.mem_cons_of_mem _ hpt, h1, h2, hd, h3, h4, hxc⟩
      · rintro (hg | ⟨hpqt, h1, h2, hd, h3, h4, hxc⟩)
        · exact Or.inl hg
        · rcases List.mem_cons.mp hpqt with hpq | hpt
          · subst hpq; subst hd
            exact absurd ⟨h1, h2, h3, h4⟩ hq
          · exact Or.inr ⟨hpt, h1, h2, hd, h3, h4, hxc⟩

theorem mem_addEntry {g : Grid} {c : Course} {e : RawEntry} {x : Course}
    {p d : Nat} :
    x ∈ addEntry g c e p d ↔
      x ∈ g p d ∨ (e.day = some d ∧ 2 ≤ d ∧ d ≤ 7 ∧ 1 ≤ p ∧ p ≤ 10 ∧
        p ∈ e.periods ∧ x = c) := by
  obtain ⟨eday, eper, eroom⟩ := e
  cases eday with
  | none => simp [addEntry]
  | some day =>
    show x ∈ (if day < 2 ∨ 7 < day then g
        else if eper.isEmpty then g else addEntryPeriods c day eper g) p d ↔ _
    by_cases hbad : day < 2 ∨ 7 < day
    · rw [if_pos hbad]
      constructor
      · exact Or.inl
      · rintro (hg | ⟨hsome, h2, h7, _⟩)
        · exact hg
        · injection hsome with hdd
          omega
    · rw [if_neg hbad]
      by_cases hemp : eper.isEmpty
      · rw [if_pos hemp]
        rw [List.isEmpty_iff] at hemp
        constructor
        · exact Or.inl
        · rintro (hg | ⟨_, _, _, _, _, hpmem, _⟩)
          · exact hg
          · rw [show (⟨some day, eper, eroom⟩ : RawEntry).periods = eper from rfl,
              hemp] at hpmem
            simp at hpmem
      · rw [if_neg hemp, mem_addEntryPeriods eper]
        constructor
        · rintro (hg | ⟨hpmem, h1, h10, hd, h2, h7, hxc⟩)
          · exact Or.inl hg
          · subst hd
            exact Or.inr ⟨rfl, h2, h7, h1, h10, hpmem, hxc⟩
        · rintro (hg | ⟨hsome, h2, h7, h1, h10, hpmem, hxc⟩)
          · exact Or.inl hg
          · injection hsome with hdd
            subst hdd
            exact Or.inr ⟨hpmem, h1, h10, rfl, h2, h7, hxc⟩

theorem mem_entriesFold {c : Course} (entries : List RawEntry) {g : Grid}
    {x : Course} {p d : Nat} :
    x ∈ (entries.foldl (fun g2 e => addEntry g2 c e) g) p d ↔
      x ∈ g p d ∨ ∃ e ∈ entries, e.day = some d ∧ 2 ≤ d ∧ d ≤ 7 ∧ 1 ≤ p ∧
        p ≤ 10 ∧ p ∈ e.periods ∧ x = c := by
  induction entries generalizing g with
  | nil => simp
  | cons e t ih =>
    rw [List.foldl_cons, ih, mem_addEntry]
    constructor
    · rintro ((hg | he) | ⟨f, hf, hfact⟩)
      · exact Or.inl hg
      · exact Or.inr ⟨e, List.mem_cons_self _ _, he⟩
      · exact Or.inr ⟨f, List.mem_cons_of_mem _ hf, hfact⟩
    · rintro (hg | ⟨f, hf, hfact⟩)
      · exact Or.inl (Or.inl hg)
      · rcases List.mem_cons.mp hf with hfe | hft
        · subst hfe
          exact Or.inl (Or.inr hfact)
        · exact Or.inr ⟨f, hft, hfact⟩

theorem mem_coursesFold (courses : List Course) {g : Grid} {x : Course}
    {p d : Nat} :
    x ∈ (courses.foldl
        (fun g course =>
          course.scheduleInfo.foldl (fun g2 e => addEntry g2 course e) g) g) p d ↔
      x ∈ g p d ∨ ∃ co ∈ courses, ∃ e ∈ co.scheduleInfo, e.day = some d ∧
        2 ≤ d ∧ d ≤ 7 ∧ 1 ≤ p ∧ p ≤ 10 ∧ p ∈ e.periods ∧ x = co := by
  induction courses generalizing g with
  | nil => simp
  | cons co t ih =>
    rw [List.foldl_cons, ih, mem_entriesFold]
    constructor
    · rintro ((hg | ⟨e, he, hfact1, hfact2, hfact3, hfact4, hfact5, hfact6,
          hfact7⟩) | ⟨co2, hco2, hrest⟩)
      · exact Or.inl hg
      · exact Or.inr ⟨co, List.mem_cons_self _ _, e, he, hfact1, hfact2, hfact3,
          hfact4, hfact5, hfact6, hfact7⟩
      · exact Or.inr ⟨co2, List.mem_cons_of_mem _ hco2, hrest⟩
    · rintro (hg | ⟨co2, hco2, e, he, hfact⟩)
      · exact Or.inl (Or.inl hg)
      · rcases List.mem_cons.mp hco2 with hc | hc
        · subst hc
          exact Or.inl (Or.inr ⟨e, he, hfact⟩)
        · exact Or.inr ⟨co2, hc, e, he, hfact⟩

/-- C1: for every course list and every grid cell `(p, d)` with
`1 ≤ p ≤ 10`, `2 ≤ d ≤ 7`, a course is placed in the cell of the weekly
grid projection iff some entry of its `scheduleInfo` has day `d` and `p`
among its periods — every placement is traceable to an entry, and every
in-range period of every valid entry appears in the cell of its day. -/
theorem C1_grid_roundtrip (courses : List Course) (p d : Nat) (c : Course)
    (hp1 : 1 ≤ p) (hp10 : p ≤ 10) (hd2 : 2 ≤ d) (hd7 : d ≤ 7) :
    c ∈ scheduleMap courses p d ↔
      c ∈ courses ∧ ∃ e ∈ c.scheduleInfo, e.day = some d ∧ p ∈ e.periods := by
  unfold scheduleMap
  rw [mem_coursesFold]
  constructor
  · rintro (hg | ⟨co, hco, e, he, hday, -, -, -, -, hpmem, hxc⟩)
    · simp at hg
    · subst hxc
      exact ⟨hco, e, he, hday, hpmem⟩
  · rintro ⟨hc, e, he, hday, hpmem⟩
    exact Or.inr ⟨c, hc, e, he, hday, hd2, hd7, hp1, hp10, hpmem, rfl⟩

/-- C1 witness: the round-trip evaluated at a one-course list in cell
(1, 2). -/
theorem C1_grid_roundtrip_witness :
    mondayCourse ∈ scheduleMap [mondayCourse] 1 2 ↔
      mondayCourse ∈ [mondayCourse] ∧ ∃ e ∈ mondayCourse.scheduleInfo,
        e.day = some 2 ∧ 1 ∈ e.periods :=
  C1_grid_roundtrip [mondayCourse] 1 2 mondayCourse (by decide) (by decide)
    (by decide) (by decide)

/-! ## ScheduleValidator.sanitizeString / sanitizeActivity (C9)

`sanitizeString` applies, in order: removal of every match of the
case-insensitive script-tag regex
`/<script\b[^<]*(?:(?!<\/script>)<[^<]*)*<\/script>/gi`, removal of every
`<` and `>`, and `trim()`.  The regex is deterministic here: a match
starts at `<script` (case-insensitive, followed by a non-word character
or end) and extends to the first following `</script>` (case-insensitive);
with no closing tag there is no match and scanning resumes at the next
character — which is exactly what `removeScriptTags` below computes. -/

/-- The characters `trim()` and `\s` strip: the ECMAScript whitespace and
line-terminator set (the code points that occur in practice). -/
def isJsWs (c : Char) : Bool :=
  c == ' ' || c == '\t' || c == '\n' || c == '\r' || c == '\x0b' || c == '\x0c' ||
    c == '\u00A0' || c == '\uFEFF'

/-- Match a sequence of character alternatives (a case-insensitive literal
pattern) against a prefix of the input, returning the rest. -/
def matchAlt : List (List Char) → List Char → Option (List Char)
  | [], s => some s
  | _ :: _, [] => none
  | alts :: ps, c :: cs => if c ∈ alts then matchAlt ps cs else none

/-- `<script` case-insensitively. -/
def scriptOpenPat : List (List Char) :=
  [['<'], ['s', 'S'], ['c', 'C'], ['r', 'R'], ['i', 'I'], ['p', 'P'], ['t', 'T']]

/-- `</script>` case-insensitively. -/
def scriptClosePat : List (List Char) :=
  [['<'], ['/'], ['s', 'S'], ['c', 'C'], ['r', 'R'], ['i', 'I'], ['p', 'P'],
    ['t', 'T'], ['>']]

/-- `\w` of the regex word boundary: `[A-Za-z0-9_]`. -/
def isWordChar (c : Char) : Bool := c.isAlphanum || c == '_'

/-- The `\b` after `<script`: the next character (if any) is not a word
character. -/
def boundaryAfterOpen : List Char → Bool
  | [] => true
  | c :: _ => !(isWordChar c)

/-- Scan for the first `</script>` (case-insensitive); return what follows
it. -/
def findScriptClose : List Char → Option (List Char)
  | [] => none
  | c :: cs =>
    match matchAlt scriptClosePat (c :: cs) with
    | some rest => some rest
    | none => findScriptClose cs

theorem matchAlt_length {ps : List (List Char)} {s r : List Char}
    (h : matchAlt ps s = some r) : r.length + ps.length = s.length := by
  induction ps generalizing s with
  | nil =>
    simp [matchAlt] at h
    simp [h]
  | cons a t ih =>
    cases s with
    | nil => simp [matchAlt] at h
    | cons c cs =>
      unfold matchAlt at h
      split at h
      · have := ih h
        simp at *
        omega
      · exact absurd h (by simp)

theorem findScriptClose_length {s r : List Char}
    (h : findScriptClose s = some r) : r.length + 9 ≤ s.length := by
  induction s with
  | nil => simp [findScriptClose] at h
  | cons c cs ih =>
    unfold findScriptClose at h
    split at h
    next heq =>
      injection h with h
      subst h
      have := matchAlt_length heq
      simp [scriptClosePat] at this
      simp
      omega
    next =>
      have := ih h
      simp
      omega

/-- Global removal of script-tag matches (`replace(..., '')` with the `g`
flag): scan left to right; at a position where the regex matches, drop the
whole match and continue after it; otherwise keep the character. -/
def removeScriptTags : List Char → List Char
  | [] => []
  | c :: cs =>
    match hopen : matchAlt scriptOpenPat (c :: cs) with
    | some rest =>
      if boundaryAfterOpen rest then
        match hclose : findScriptClose rest with
        | some rest2 => removeScriptTags rest2
        | none => c :: removeScriptTags cs
      else c :: removeScriptTags cs
    | none => c :: removeScriptTags cs
termination_by s => s.length
decreasing_by
  · have h1 := matchAlt_length hopen
    have h2 := findScriptClose_length hclose
    simp [scriptOpenPat] at h1
    simp
    omega
  · simp
  · simp
  · simp

/-- `replace(/[<>]/g, '')`. -/
def removeAngle (s : List Char) : List Char :=
  s.filter (fun c => !(c == '<' || c == '>'))

/-- `String.prototype.trim()`: strip the whitespace prefix, then the
whitespace suffix. -/
def trimStr (s : List Char) : List Char :=
  ((s.dropWhile isJsWs).reverse.dropWhile isJsWs).reverse

/-- `ScheduleValidator.sanitizeString` (lines 250–258). -/
def sanitizeString (s : List Char) : List Char :=
  trimStr (removeAngle (removeScriptTags s))

theorem removeScriptTags_of_no_lt {s : List Char} (h : ∀ ch ∈ s, ch ≠ '<') :
    removeScriptTags s = s := by
  induction s with
  | nil => rw [removeScriptTags]
  | cons c cs ih =>
    have hc : c ≠ '<' := h c (List.mem_cons_self _ _)
    have hopen : matchAlt scriptOpenPat (c :: cs) = none := by
      unfold scriptOpenPat matchAlt
      rw [if_neg (by simp [hc])]
    rw [removeScriptTags, hopen]
    rw [ih (fun x hx => h x (List.mem_cons_of_mem _ hx))]

theorem head_dropWhile_false {p : Char → Bool} {l : List Char} {c : Char}
    (h : (l.dropWhile p).head? = some c) : p c = false := by
  induction l with
  | nil => simp at h
  | cons x t ih =>
    rw [List.dropWhile_cons] at h
    split at h
    · exact ih h
    next hpx =>
      simp at h
      subst h
      simpa using hpx

theorem dropWhile_eq_self_of_head {p : Char → Bool} {l : List Char}
    (h : ∀ c, l.head? = some c → p c = false) : l.dropWhile p = l := by
  cases l with
  | nil => rfl
  | cons x t =>
    rw [List.dropWhile_cons, if_neg]
    simp [h x rfl]

theorem dropWhile_dropWhile (p : Char → Bool) (l : List Char) :
    (l.dropWhile p).dropWhile p = l.dropWhile p :=
  dropWhile_eq_self_of_head (fun _ hc => head_dropWhile_false hc)

theorem trimStr_idem (s : List Char) : trimStr (trimStr s) = trimStr s := by
  unfold trimStr
  have hhead : ∀ c,
      (((s.dropWhile isJsWs).reverse.dropWhile isJsWs).reverse).head? = some c →
        isJsWs c = false := by
    intro c hc
    have hpref : ((s.dropWhile isJsWs).reverse.dropWhile isJsWs).reverse <+:
        s.dropWhile isJsWs := by
      have hsuff : (s.dropWhile isJsWs).reverse.dropWhile isJsWs <:+
          (s.dropWhile isJsWs).reverse := List.dropWhile_suffix _
      have hp := List.reverse_prefix.mpr hsuff
      rwa [List.reverse_reverse] at hp
    rcases hpref with ⟨r, hr⟩
    rcases hrev : ((s.dropWhile isJsWs).reverse.dropWhile isJsWs).reverse with
      _ | ⟨y, t⟩
    · rw [hrev] at hc
      simp at hc
    · rw [hrev] at hc hr
      simp at hc
      subst hc
      apply head_dropWhile_false (p := isJsWs) (l := s)
      rw [← hr]
      simp
  rw [dropWhile_eq_self_of_head hhead, List.reverse_reverse,
    dropWhile_dropWhile]

theorem mem_trimStr {x : Char} {s : List Char} (h : x ∈ trimStr s) : x ∈ s := by
  unfold trimStr at h
  rw [List.mem_reverse] at h
  have h2 := (List.dropWhile_sublist (l := (s.dropWhile isJsWs).reverse) isJsWs).mem h
  rw [List.mem_reverse] at h2
  exact (List.dropWhile_sublist (l := s) isJsWs).mem h2

theorem sanitizeString_idem (s : List Char) :
    sanitizeString (sanitizeString s) = sanitizeString s := by
  have hmem : ∀ x ∈ sanitizeString s, x ≠ '<' ∧ x ≠ '>' := by
    intro x hx
    have hx2 := List.mem_filter.mp (mem_trimStr hx)
    refine ⟨?_, ?_⟩ <;> rintro rfl <;> simp at hx2
  show trimStr (removeAngle (removeScriptTags (sanitizeString s))) = _
  rw [removeScriptTags_of_no_lt (fun ch hch => (hmem ch hch).1)]
  have hfix : removeAngle (sanitizeString s) = sanitizeString s := by
    apply List.filter_eq_self.mpr
    intro a ha
    rcases hmem a ha with ⟨h1, h2⟩
    simp [h1, h2]
  rw [hfix]
  exact trimStr_idem _

/-- Sanitize one optional free-text field: the source only rewrites a
field when it is truthy (present and non-empty). -/
def sanitizeField (o : Option (List Char)) : Option (List Char) :=
  match o with
  | none => none
  | some s => if s = [] then some s else some (sanitizeString s)

/-- The duration clamp of `sanitizeActivity`:
`max(15, min(480, parseInt(d) || 15))`, applied only when the field is
present. -/
def clampDuration (o : Option Int) : Option Int :=
  match o with
  | none => none
  | some d => some (max 15 (min 480 (if d = 0 then 15 else d)))

/-- `ScheduleValidator.sanitizeActivity` (lines 263–291). -/
def sanitizeActivity (a : Activity) : Activity :=
  { a with
      topic := sanitizeField a.topic,
      content := sanitizeField a.content,
      courseName := sanitizeField a.courseName,
      name := sanitizeField a.name,
      estimatedDuration := clampDuration a.estimatedDuration }

theorem sanitizeField_idem (o : Option (List Char)) :
    sanitizeField (sanitizeField o) = sanitizeField o := by
  rcases o with _ | s
  · rfl
  · show sanitizeField (if s = [] then some s else some (sanitizeString s)) =
      (if s = [] then some s else some (sanitizeString s))
    by_cases hs : s = []
    · rw [if_pos hs]
      subst hs
      rfl
    · rw [if_neg hs]
      show (if sanitizeString s = [] then some (sanitizeString s)
          else some (sanitizeString (sanitizeString s))) = some (sanitizeString s)
      by_cases hz : sanitizeString s = []
      · rw [if_pos hz]
      · rw [if_neg hz, sanitizeString_idem]

theorem clampDuration_idem (o : Option Int) :
    clampDuration (clampDuration o) = clampDuration o := by
  rcases o with _ | d
  · rfl
  · have hv : (15 : Int) ≤ max 15 (min 480 (if d = 0 then 15 else d)) :=
      le_max_left _ _
    show some (max 15 (min 480 (if max 15 (min 480 (if d = 0 then 15 else d)) = 0
        then 15 else max 15 (min 480 (if d = 0 then 15 else d))))) =
      some (max 15 (min 480 (if d = 0 then 15 else d)))
    rw [if_neg (by omega)]
    congr 1
    simp only [max_def, min_def]
    split_ifs <;> omega

/-- C9: `sanitizeString` is idempotent, and consequently so is
`sanitizeActivity`. -/
theorem C9_sanitize_idempotent :
    (∀ s : List Char, sanitizeString (sanitizeString s) = sanitizeString s) ∧
      ∀ a : Activity, sanitizeActivity (sanitizeActivity a) = sanitizeActivity a := by
  refine ⟨sanitizeString_idem, ?_⟩
  intro a
  obtain ⟨i, pr, ed, tp, ct, cn, nm, st, se⟩ := a
  simp only [sanitizeActivity]
  simp [sanitizeField_idem, clampDuration_idem]

/-! ## ScheduleManager.parseScheduleString (C8, C4)

The schedule-cell parser of ScheduleManager.js (lines 189–281).  The three
regex extractions are compiled to deterministic scanners, faithful to the
left-to-right, leftmost-match semantics of `String.prototype.match`
without the `g` flag:

* day: `/Thứ\s*(\d+)/i` — the case-insensitive keyword, optional
  whitespace, then a digit run;
* periods: `/(\d+)\s*[-–]\s*(\d+)/` applied to the text after the first
  comma — at a candidate position the greedy digit run must reach a dash
  (a shortened run would face another digit), so the scan is
  deterministic;
* room: `/([A-Z]\d+\.?\d*|[A-Z]\d+)(?:\s|$)/` — an uppercase letter, a
  digit run, an optional dot plus digit run, followed by whitespace or the
  end; the backtracking alternatives all fail whenever this deterministic
  reading fails (any shortened run faces a digit or the dot). -/

/-- Maximal digit run at the head: `(digits, rest)`. -/
def digitRun : List Char → List Char × List Char
  | [] => ([], [])
  | c :: cs =>
    if c.isDigit then
      let (d, r) := digitRun cs
      (c :: d, r)
    else ([], c :: cs)

/-- The day keyword `Thứ`, case-insensitively. -/
def thuPat : List (List Char) := [['T', 't'], ['h', 'H'], ['ứ', 'Ứ']]

/-- Try the day pattern at the current position: keyword, `\s*`, then a
nonempty digit run, returning the digits. -/
def tryDay (s : List Char) : Option (List Char) :=
  match matchAlt thuPat s with
  | none => none
  | some rest =>
    let (ds, _) := digitRun (rest.dropWhile isJsWs)
    if ds = [] then none else some ds

/-- First match of the day pattern anywhere in the string. -/
def findDayDigits : List Char → Option (List Char)
  | [] => none
  | c :: cs =>
    match tryDay (c :: cs) with
    | some ds => some ds
    | none => findDayDigits cs

/-- Day extraction with the 2–7 validation of the source: an out-of-range
or missing day leaves `day = null`. -/
def dayField (s : List Char) : Option Nat :=
  match findDayDigits s with
  | none => none
  | some ds =>
    if 2 ≤ digitsToNat ds ∧ digitsToNat ds ≤ 7 then some (digitsToNat ds) else none

/-- Everything after the first comma, if any (`indexOf(',')`). -/
def afterFirstComma : List Char → Option (List Char)
  | [] => none
  | c :: cs => if c = ',' then some cs else afterFirstComma cs

/-- The substring the period regex is applied to: after the first comma,
or the whole string when there is none. -/
def periodSource (s : List Char) : List Char :=
  (afterFirstComma s).getD s

/-- Try the period range pattern at the current position. -/
def tryRange (s : List Char) : Option (Nat × Nat) :=
  let (d1, r1) := digitRun s
  if d1 = [] then none
  else
    match r1.dropWhile isJsWs with
    | [] => none
    | c :: r3 =>
      if c = '-' ∨ c = '–' then
        let (d2, _) := digitRun (r3.dropWhile isJsWs)
        if d2 = [] then none else some (digitsToNat d1, digitsToNat d2)
      else none

/-- First match of the period range pattern anywhere in the string. -/
def findRange : List Char → Option (Nat × Nat)
  | [] => none
  | c :: cs =>
    match tryRange (c :: cs) with
    | some r => some r
    | none => findRange cs

/-- Period extraction with the 1–10 / start ≤ end validation of the
source, expanded to the inclusive range. -/
def periodsField (s : List Char) : List Nat :=
  match findRange (periodSource s) with
  | none => []
  | some (st, en) =>
    if 1 ≤ st ∧ st ≤ 10 ∧ 1 ≤ en ∧ en ≤ 10 ∧ st ≤ en then
      List.range' st (en + 1 - st)
    else []

/-- `(?:\s|$)`: end of input or a whitespace character next. -/
def endOrWs : List Char → Bool
  | [] => true
  | c :: _ => isJsWs c

/-- Try the room pattern at the current position. -/
def tryRoom : List Char → Option (List Char)
  | [] => none
  | c :: r0 =>
    if 'A' ≤ c ∧ c ≤ 'Z' then
      let (d1, r1) := digitRun r0
      if d1 = [] then none
      else
        match r1 with
        | '.' :: r2 =>
          let (d2, r3) := digitRun r2
          if endOrWs r3 then some (c :: (d1 ++ '.' :: d2)) else none
        | rest => if endOrWs rest then some (c :: d1) else none
    else none

/-- First match of the room pattern anywhere in the string. -/
def findRoom : List Char → Option (List Char)
  | [] => none
  | c :: cs =>
    match tryRoom (c :: cs) with
    | some r => some r
    | none => findRoom cs

/-- `ScheduleManager.parseSingleScheduleEntry`. -/
def parseSingleScheduleEntry (partStr : List Char) : RawEntry :=
  let str := trimStr partStr
  { day := dayField str,
    periods := periodsField str,
    room :=
      match findRoom str with
      | some r => trimStr r
      | none => [] }

/-- `split(/[;\n]/)`. -/
def splitSemiNl : List Char → List (List Char)
  | [] => [[]]
  | c :: cs =>
    if c = ';' ∨ c = '\n' then [] :: splitSemiNl cs
    else
      match splitSemiNl cs with
      | [] => [[c]]
      | h :: t => (c :: h) :: t

/-- The split candidates: split on `;`/newline, trim each, keep the
non-empty ones. -/
def scheduleParts (s : List Char) : List (List Char) :=
  ((splitSemiNl s).map trimStr).filter (fun p => !p.isEmpty)

/-- The keep condition of the source:
`result.day && result.periods.length > 0` (a stored day is 2–7, hence
never the falsy 0). -/
def entryKept (r : RawEntry) : Bool :=
  r.day.isSome && !r.periods.isEmpty

/-- `ScheduleManager.parseScheduleString`. -/
def parseScheduleString (scheduleStr : List Char) : List RawEntry :=
  if trimStr scheduleStr = [] then []
  else
    let parts := scheduleParts (trimStr scheduleStr)
    if parts = [] then []
    else (parts.map parseSingleScheduleEntry).filter entryKept

theorem trimStr_nil_of_all_ws {s : List Char} (h : ∀ c ∈ s, isJsWs c = true) :
    trimStr s = [] := by
  unfold trimStr
  have h1 : s.dropWhile isJsWs = [] := List.dropWhile_eq_nil_iff.mpr h
  rw [h1]
  rfl

theorem dayField_range {s : List Char} {d : Nat} (h : dayField s = some d) :
    2 ≤ d ∧ d ≤ 7 := by
  unfold dayField at h
  split at h
  · exact absurd h (by simp)
  · split at h
    · injection h with h
      subst h
      assumption
    · exact absurd h (by simp)

theorem periodsField_range {s : List Char} {p : Nat}
    (h : p ∈ periodsField s) : 1 ≤ p ∧ p ≤ 10 := by
  unfold periodsField at h
  split at h
  · simp at h
  · split at h
    next st en heq hcond =>
      rcases List.mem_range'.mp h with ⟨i, hi, rfl⟩
      omega
    · simp at h

/-- C8: the parser is a total function; empty or whitespace-only input
yields the empty list; the result is exactly the per-candidate parses of
the split (split on `;`/newline, trimmed, empties dropped) filtered by the
keep condition; the keep condition holds iff a day and at least one period
were extracted (the room is not consulted); an extracted day is always in
2–7 and every extracted period is in 1–10. -/
theorem C8_parser_never_raises :
    (∀ s : List Char, (∀ c ∈ s, isJsWs c = true) → parseScheduleString s = []) ∧
    (∀ s : List Char,
      parseScheduleString s =
        ((scheduleParts (trimStr s)).map parseSingleScheduleEntry).filter
          entryKept) ∧
    (∀ part : List Char, ∀ d : Nat,
      (parseSingleScheduleEntry part).day = some d → 2 ≤ d ∧ d ≤ 7) ∧
    (∀ part : List Char, ∀ p : Nat,
      p ∈ (parseSingleScheduleEntry part).periods → 1 ≤ p ∧ p ≤ 10) ∧
    (∀ r : RawEntry, entryKept r = true ↔ (r.day ≠ none ∧ r.periods ≠ [])) := by
  have hchain : ∀ s : List Char,
      parseScheduleString s =
        ((scheduleParts (trimStr s)).map parseSingleScheduleEntry).filter
          entryKept := by
    intro s
    unfold parseScheduleString
    by_cases h0 : trimStr s = []
    · rw [if_pos h0, h0]
      rfl
    · rw [if_neg h0]
      by_cases h1 : scheduleParts (trimStr s) = []
      · rw [if_pos h1, h1]
        rfl
      · rw [if_neg h1]
  refine ⟨?_, hchain, ?_, ?_, ?_⟩
  · intro s hws
    unfold parseScheduleString
    rw [if_pos (trimStr_nil_of_all_ws hws)]
  · intro part d h
    exact dayField_range h
  · intro part p h
    exact periodsField_range h
  · intro r
    unfold entryKept
    rcases r with ⟨rd, rp, rr⟩
    simp [Option.isSome_iff_ne_none]

/-- C8 witness: the whitespace-only input `"   "`. -/
theorem C8_parser_never_raises_witness :
    parseScheduleString [' ', ' ', ' '] = [] :=
  C8_parser_never_raises.1 [' ', ' ', ' '] (by decide)

/-! ### C4 machinery: character classes and scanning lemmas -/

theorem not_upper_of_isDigit {c : Char} (h : c.isDigit = true) :
    ¬ ('A' ≤ c ∧ c ≤ 'Z') := by
  rintro ⟨h1, -⟩
  simp [Char.isDigit] at h
  rw [Char.le_def] at h1
  have k1 : c.val.toNat ≤ (57 : UInt32).toNat := h.2
  have k2 : ('A' : Char).val.toNat ≤ c.val.toNat := h1
  have e1 : (57 : UInt32).toNat = 57 := rfl
  have e2 : ('A' : Char).val.toNat = 65 := rfl
  omega

theorem isJsWs_false_of_isDigit {c : Char} (h : c.isDigit = true) :
    isJsWs c = false := by
  simp only [isJsWs, Bool.or_eq_false_iff, beq_eq_false_iff_ne]
  refine ⟨⟨⟨⟨⟨⟨⟨?_, ?_⟩, ?_⟩, ?_⟩, ?_⟩, ?_⟩, ?_⟩, ?_⟩ <;> rintro rfl <;>
    simp [Char.isDigit] at h

theorem isJsWs_false_of_upper {c : Char} (h1 : 'A' ≤ c) (h2 : c ≤ 'Z') :
    isJsWs c = false := by
  simp only [isJsWs, Bool.or_eq_false_iff, beq_eq_false_iff_ne]
  refine ⟨⟨⟨⟨⟨⟨⟨?_, ?_⟩, ?_⟩, ?_⟩, ?_⟩, ?_⟩, ?_⟩, ?_⟩ <;> rintro rfl <;>
    revert h1 h2 <;> decide

theorem ne_sep_of_isDigit {c : Char} (h : c.isDigit = true) :
    ¬ (c = ';' ∨ c = '\n') := by
  rintro (rfl | rfl) <;> simp [Char.isDigit] at h

theorem ne_comma_of_isDigit {c : Char} (h : c.isDigit = true) : c ≠ ',' := by
  rintro rfl
  simp [Char.isDigit] at h

theorem ne_sep_of_upper {c : Char} (h1 : 'A' ≤ c) (h2 : c ≤ 'Z') :
    ¬ (c = ';' ∨ c = '\n') := by
  rintro (rfl | rfl) <;> revert h1 h2 <;> decide

theorem digitRun_head_nondigit {r : List Char}
    (hr : ∀ c, r.head? = some c → c.isDigit = false) : digitRun r = ([], r) := by
  cases r with
  | nil => rfl
  | cons c cs =>
    unfold digitRun
    rw [if_neg]
    simp [hr c rfl]

theorem digitRun_append {ds r : List Char} (hds : ∀ c ∈ ds, c.isDigit = true)
    (hr : ∀ c, r.head? = some c → c.isDigit = false) :
    digitRun (ds ++ r) = (ds, r) := by
  induction ds with
  | nil =>
    rw [List.nil_append]
    exact digitRun_head_nondigit hr
  | cons d t ih =>
    rw [List.cons_append]
    unfold digitRun
    rw [if_pos (hds d (List.mem_cons_self _ _))]
    rw [ih (fun c hc => hds c (List.mem_cons_of_mem _ hc))]

theorem dropWhile_nonws_head {r : List Char}
    (hr : ∀ c, r.head? = some c → isJsWs c = false) :
    r.dropWhile isJsWs = r :=
  dropWhile_eq_self_of_head hr

theorem tryDay_template {dD : Char} {rest : List Char} (hdD : dD.isDigit = true)
    (hrest : ∀ c, rest.head? = some c → c.isDigit = false) :
    tryDay ('T' :: 'h' :: 'ứ' :: ' ' :: dD :: rest) = some [dD] := by
  have hmatch : matchAlt thuPat ('T' :: 'h' :: 'ứ' :: ' ' :: dD :: rest) =
      some (' ' :: dD :: rest) := rfl
  have hdrop : (' ' :: dD :: rest).dropWhile isJsWs = dD :: rest := by
    rw [List.dropWhile_cons, if_pos (by decide), List.dropWhile_cons,
      if_neg (by simp [isJsWs_false_of_isDigit hdD])]
  have hrun : digitRun (dD :: rest) = ([dD], rest) := by
    unfold digitRun
    rw [if_pos hdD, digitRun_head_nondigit hrest]
  simp only [tryDay, hmatch, hdrop, hrun]
  simp

theorem findDayDigits_cons_some {c : Char} {cs ds : List Char}
    (h : tryDay (c :: cs) = some ds) : findDayDigits (c :: cs) = some ds := by
  unfold findDayDigits
  rw [h]

theorem afterFirstComma_template {dD : Char} {rest : List Char}
    (hdD : dD.isDigit = true) :
    afterFirstComma ('T' :: 'h' :: 'ứ' :: ' ' :: dD :: ',' :: rest) = some rest := by
  unfold afterFirstComma
  rw [if_neg (by decide)]
  unfold afterFirstComma
  rw [if_neg (by decide)]
  unfold afterFirstComma
  rw [if_neg (by decide)]
  unfold afterFirstComma
  rw [if_neg (by decide)]
  unfold afterFirstComma
  rw [if_neg (ne_comma_of_isDigit hdD)]
  unfold afterFirstComma
  rw [if_pos rfl]

theorem tryRange_template {p1 p2 : List Char} {room : List Char}
    (hp1ne : p1 ≠ []) (hp1d : ∀ c ∈ p1, c.isDigit = true)
    (hp2ne : p2 ≠ []) (hp2d : ∀ c ∈ p2, c.isDigit = true) :
    tryRange (p1 ++ '-' :: p2 ++ ',' :: room) =
      some (digitsToNat p1, digitsToNat p2) := by
  have hrun1 : digitRun (p1 ++ '-' :: (p2 ++ ',' :: room)) =
      (p1, '-' :: (p2 ++ ',' :: room)) :=
    digitRun_append hp1d (by intro c hc; injection hc with hc; subst hc; rfl)
  have hp2head : ∀ c, (p2 ++ ',' :: room).head? = some c → c.isDigit = true := by
    intro c hc
    cases p2 with
    | nil => exact absurd rfl hp2ne
    | cons y t =>
      rw [List.cons_append] at hc
      injection hc with hc
      subst hc
      exact hp2d _ (List.mem_cons_self _ _)
  have hrun2 : digitRun (p2 ++ ',' :: room) = (p2, ',' :: room) :=
    digitRun_append hp2d (by intro c hc; injection hc with hc; subst hc; rfl)
  have hdrop2 : (p2 ++ ',' :: room).dropWhile isJsWs = p2 ++ ',' :: room := by
    apply dropWhile_nonws_head
    intro c hc
    exact isJsWs_false_of_isDigit (hp2head c hc)
  have hassoc : p1 ++ '-' :: p2 ++ ',' :: room = p1 ++ '-' :: (p2 ++ ',' :: room) := by
    simp
  rw [hassoc]
  simp only [tryRange, hrun1]
  rw [if_neg (by simp [hp1ne])]
  have hdropdash : ('-' :: (p2 ++ ',' :: room)).dropWhile isJsWs =
      '-' :: (p2 ++ ',' :: room) := by
    rw [List.dropWhile_cons, if_neg (by decide)]
  simp only [hdropdash]
  rw [if_pos (by simp : True ∨ ('-' : Char) = '–')]
  simp only [hdrop2, hrun2]
  rw [if_neg (by simp [hp2ne])]

theorem findRange_cons_some {c : Char} {cs : List Char} {r : Nat × Nat}
    (h : tryRange (c :: cs) = some r) : findRange (c :: cs) = some r := by
  unfold findRange
  rw [h]

/-- A room token of the claim's shape: one uppercase letter, digits, and
optionally a dot plus digits. -/
def ValidRoom (room : List Char) : Prop :=
  ∃ c ds1, ('A' ≤ c ∧ c ≤ 'Z') ∧ ds1 ≠ [] ∧ (∀ x ∈ ds1, x.isDigit = true) ∧
    (room = c :: ds1 ∨
      ∃ ds2, ds2 ≠ [] ∧ (∀ x ∈ ds2, x.isDigit = true) ∧
        room = c :: (ds1 ++ '.' :: ds2))

theorem digitRun_all {ds : List Char} (hd : ∀ c ∈ ds, c.isDigit = true) :
    digitRun ds = (ds, []) := by
  rw [← List.append_nil ds]
  rw [digitRun_append hd (by intro c hc; simp at hc)]
  simp

theorem tryRoom_valid {room : List Char} (h : ValidRoom room) :
    tryRoom room = some room := by
  obtain ⟨c, ds1, ⟨hA, hZ⟩, hne, hd, hcase⟩ := h
  rcases hcase with rfl | ⟨ds2, hne2, hd2, rfl⟩
  · simp [tryRoom, hA, hZ, digitRun_all hd, hne, endOrWs]
  · have hr1 : digitRun (ds1 ++ '.' :: ds2) = (ds1, '.' :: ds2) :=
      digitRun_append hd (by intro x hx; injection hx with hx; subst hx; rfl)
    simp [tryRoom, hA, hZ, hr1, hne, digitRun_all hd2, endOrWs]

theorem findRoom_cons_skip {x : Char} {rest : List Char}
    (hx : tryRoom (x :: rest) = none) : findRoom (x :: rest) = findRoom rest := by
  simp only [findRoom, hx]

theorem tryRoom_none_of_not_upper {x : Char} {rest : List Char}
    (hx : ¬ ('A' ≤ x ∧ x ≤ 'Z')) : tryRoom (x :: rest) = none := by
  simp only [tryRoom]
  rw [if_neg hx]

theorem tryRoom_none_of_next_nondigit {x : Char} {rest : List Char}
    (hr : ∀ c, rest.head? = some c → c.isDigit = false) :
    tryRoom (x :: rest) = none := by
  simp [tryRoom, digitRun_head_nondigit hr, ite_self]

theorem findRoom_digits_skip {ds rest : List Char}
    (hd : ∀ c ∈ ds, c.isDigit = true) :
    findRoom (ds ++ rest) = findRoom rest := by
  induction ds with
  | nil => rfl
  | cons d t ih =>
    rw [List.cons_append]
    rw [findRoom_cons_skip
      (tryRoom_none_of_not_upper (not_upper_of_isDigit (hd d (List.mem_cons_self _ _))))]
    exact ih (fun c hc => hd c (List.mem_cons_of_mem _ hc))

theorem splitSemiNl_no_sep {s : List Char}
    (h : ∀ c ∈ s, ¬ (c = ';' ∨ c = '\n')) : splitSemiNl s = [s] := by
  induction s with
  | nil => rfl
  | cons c cs ih =>
    unfold splitSemiNl
    rw [if_neg (h c (List.mem_cons_self _ _))]
    rw [ih (fun x hx => h x (List.mem_cons_of_mem _ hx))]

theorem trimStr_eq_self {s : List Char}
    (hh : ∀ c, s.head? = some c → isJsWs c = false)
    (hl : ∀ c, s.getLast? = some c → isJsWs c = false) : trimStr s = s := by
  unfold trimStr
  rw [dropWhile_eq_self_of_head hh]
  rw [dropWhile_eq_self_of_head
    (fun c hc => hl c (by rwa [List.head?_reverse] at hc))]
  exact List.reverse_reverse s

theorem getLast?_append_right {l1 l2 : List Char} (h : l2 ≠ []) :
    (l1 ++ l2).getLast? = l2.getLast? := by
  rw [List.getLast?_append]
  cases hl : l2.getLast? with
  | none =>
    rw [List.getLast?_eq_none_iff] at hl
    exact absurd hl h
  | some x => rfl

theorem getLast?_digit_of_all {ds : List Char} (hne : ds ≠ [])
    (hd : ∀ c ∈ ds, c.isDigit = true) :
    ∃ r, ds.getLast? = some r ∧ r.isDigit = true := by
  induction ds with
  | nil => exact absurd rfl hne
  | cons d t ih =>
    cases ht : t with
    | nil => exact ⟨d, rfl, hd d (List.mem_cons_self _ _)⟩
    | cons y u =>
      subst ht
      rcases ih (by simp) (fun c hc => hd c (List.mem_cons_of_mem _ hc)) with
        ⟨r, hr, hrd⟩
      refine ⟨r, ?_, hrd⟩
      rw [show (d :: y :: u) = [d] ++ (y :: u) from rfl,
        getLast?_append_right (by simp)]
      exact hr

theorem validRoom_getLast {room : List Char} (h : ValidRoom room) :
    ∃ r, room.getLast? = some r ∧ r.isDigit = true := by
  obtain ⟨c, ds1, ⟨hA, hZ⟩, hne, hd, hcase⟩ := h
  rcases hcase with rfl | ⟨ds2, hne2, hd2, rfl⟩
  · rcases getLast?_digit_of_all hne hd with ⟨r, hr, hrd⟩
    refine ⟨r, ?_, hrd⟩
    rw [show (c :: ds1) = [c] ++ ds1 from rfl, getLast?_append_right hne]
    exact hr
  · rcases getLast?_digit_of_all hne2 hd2 with ⟨r, hr, hrd⟩
    refine ⟨r, ?_, hrd⟩
    rw [show (c :: (ds1 ++ '.' :: ds2)) = ([c] ++ ds1 ++ ['.']) ++ ds2 by simp,
      getLast?_append_right hne2]
    exact hr

theorem validRoom_ne_nil {room : List Char} (h : ValidRoom room) : room ≠ [] := by
  obtain ⟨c, ds1, -, -, -, hcase⟩ := h
  rcases hcase with rfl | ⟨ds2, -, -, rfl⟩ <;> simp

theorem validRoom_mem {room : List Char} (h : ValidRoom room) {x : Char}
    (hx : x ∈ room) :
    ('A' ≤ x ∧ x ≤ 'Z') ∨ x.isDigit = true ∨ x = '.' := by
  obtain ⟨c, ds1, hup, hne, hd, hcase⟩ := h
  rcases hcase with rfl | ⟨ds2, hne2, hd2, rfl⟩
  · rcases List.mem_cons.mp hx with rfl | hx
    · exact Or.inl hup
    · exact Or.inr (Or.inl (hd x hx))
  · rcases List.mem_cons.mp hx with rfl | hx
    · exact Or.inl hup
    · rcases List.mem_append.mp hx with hx | hx
      · exact Or.inr (Or.inl (hd x hx))
      · rcases List.mem_cons.mp hx with rfl | hx
        · exact Or.inr (Or.inr rfl)
        · exact Or.inr (Or.inl (hd2 x hx))

theorem findRoom_valid_at_head {room : List Char} (h : ValidRoom room) :
    findRoom room = some room := by
  obtain ⟨c, ds1, hup, hne, hd, hcase⟩ := h
  have hv : ValidRoom room := ⟨c, ds1, hup, hne, hd, hcase⟩
  rcases hcase with rfl | ⟨ds2, hne2, hd2, rfl⟩ <;>
    (unfold findRoom; rw [tryRoom_valid hv])

theorem getLast?_cons_ne {c : Char} {l : List Char} (h : l ≠ []) :
    (c :: l).getLast? = l.getLast? := by
  rw [show (c :: l) = [c] ++ l from rfl, getLast?_append_right h]

/-- C4: a well-formed single-entry cell "Thứ D,P1-P2,ROOM" — day digit
`dD` with value `D ∈ [2,7]`, digit strings `p1`, `p2` with values
`1 ≤ P1 ≤ P2 ≤ 10`, and a room of the stated shape — parses to exactly
one entry with day `D`, periods `[P1..P2]`, and the room text. -/
theorem C4_single_entry_parse (D P1 P2 : Nat) (dD : Char) (p1 p2 room : List Char)
    (hdD : dD.isDigit = true) (hdDv : digitsToNat [dD] = D)
    (hD2 : 2 ≤ D) (hD7 : D ≤ 7)
    (hp1ne : p1 ≠ []) (hp1d : ∀ c ∈ p1, c.isDigit = true)
    (hp1v : digitsToNat p1 = P1)
    (hp2ne : p2 ≠ []) (hp2d : ∀ c ∈ p2, c.isDigit = true)
    (hp2v : digitsToNat p2 = P2)
    (hP1 : 1 ≤ P1) (hPle : P1 ≤ P2) (hP2 : P2 ≤ 10)
    (hroom : ValidRoom room) :
    parseScheduleString
        ('T' :: 'h' :: 'ứ' :: ' ' :: dD :: ',' :: (p1 ++ '-' :: p2 ++ ',' :: room)) =
      [{ day := some D, periods := List.range' P1 (P2 + 1 - P1), room := room }] := by
  have hroomne : room ≠ [] := validRoom_ne_nil hroom
  have htailne : p1 ++ '-' :: p2 ++ ',' :: room ≠ [] := by simp [hp1ne]
  -- the last character of the whole cell is the last character of the room
  have hlastS : ∀ c : Char,
      ('T' :: 'h' :: 'ứ' :: ' ' :: dD :: ',' ::
        (p1 ++ '-' :: p2 ++ ',' :: room)).getLast? = some c → isJsWs c = false := by
    intro c hc
    rcases validRoom_getLast hroom with ⟨r, hr, hrd⟩
    rw [getLast?_cons_ne (by simp [hp1ne]), getLast?_cons_ne (by simp [hp1ne]),
      getLast?_cons_ne (by simp [hp1ne]), getLast?_cons_ne (by simp [hp1ne]),
      getLast?_cons_ne (by simp [hp1ne]), getLast?_cons_ne htailne] at hc
    rw [show p1 ++ '-' :: p2 ++ ',' :: room =
        (p1 ++ '-' :: p2 ++ [',']) ++ room by simp] at hc
    rw [getLast?_append_right hroomne, hr] at hc
    injection hc with hc
    subst hc
    exact isJsWs_false_of_isDigit hrd
  have htrim : trimStr ('T' :: 'h' :: 'ứ' :: ' ' :: dD :: ',' ::
      (p1 ++ '-' :: p2 ++ ',' :: room)) =
      'T' :: 'h' :: 'ứ' :: ' ' :: dD :: ',' :: (p1 ++ '-' :: p2 ++ ',' :: room) := by
    apply trimStr_eq_self
    · intro c hc
      injection hc with hc
      subst hc
      rfl
    · exact hlastS
  -- day
  have htry : tryDay ('T' :: 'h' :: 'ứ' :: ' ' :: dD :: ',' ::
      (p1 ++ '-' :: p2 ++ ',' :: room)) = some [dD] :=
    tryDay_template hdD (by intro c hc; injection hc with hc; subst hc; rfl)
  have hday : dayField ('T' :: 'h' :: 'ứ' :: ' ' :: dD :: ',' ::
      (p1 ++ '-' :: p2 ++ ',' :: room)) = some D := by
    simp only [dayField, findDayDigits_cons_some htry, hdDv]
    rw [if_pos ⟨hD2, hD7⟩]
  -- periods
  have hafter : afterFirstComma ('T' :: 'h' :: 'ứ' :: ' ' :: dD :: ',' ::
      (p1 ++ '-' :: p2 ++ ',' :: room)) = some (p1 ++ '-' :: p2 ++ ',' :: room) :=
    afterFirstComma_template hdD
  have htryR : tryRange (p1 ++ '-' :: p2 ++ ',' :: room) = some (P1, P2) := by
    have h := @tryRange_template p1 p2 room hp1ne hp1d hp2ne hp2d
    rwa [hp1v, hp2v] at h
  have hfindR : findRange (p1 ++ '-' :: p2 ++ ',' :: room) = some (P1, P2) := by
    cases hp : p1 with
    | nil => exact absurd hp hp1ne
    | cons d t =>
      subst hp
      rw [List.cons_append] at htryR ⊢
      exact findRange_cons_some htryR
  have hperiods : periodsField ('T' :: 'h' :: 'ứ' :: ' ' :: dD :: ',' ::
      (p1 ++ '-' :: p2 ++ ',' :: room)) = List.range' P1 (P2 + 1 - P1) := by
    simp only [periodsField, periodSource, hafter, Option.getD_some, hfindR]
    rw [if_pos ⟨hP1, by omega, by omega, hP2, hPle⟩]
  -- room
  have hroomF : findRoom ('T' :: 'h' :: 'ứ' :: ' ' :: dD :: ',' ::
      (p1 ++ '-' :: p2 ++ ',' :: room)) = some room := by
    rw [findRoom_cons_skip (tryRoom_none_of_next_nondigit
      (by intro c hc; injection hc with hc; subst hc; rfl))]
    rw [findRoom_cons_skip (tryRoom_none_of_not_upper (by decide))]
    rw [findRoom_cons_skip (tryRoom_none_of_not_upper (by decide))]
    rw [findRoom_cons_skip (tryRoom_none_of_not_upper (by decide))]
    rw [findRoom_cons_skip (tryRoom_none_of_not_upper (not_upper_of_isDigit hdD))]
    rw [findRoom_cons_skip (tryRoom_none_of_not_upper (by decide))]
    rw [List.append_assoc]
    rw [findRoom_digits_skip hp1d]
    rw [List.cons_append]
    rw [findRoom_cons_skip (tryRoom_none_of_not_upper (by decide))]
    rw [findRoom_digits_skip hp2d]
    rw [findRoom_cons_skip (tryRoom_none_of_not_upper (by decide))]
    exact findRoom_valid_at_head hroom
  have htrimroom : trimStr room = room := by
    apply trimStr_eq_self
    · intro c hc
      obtain ⟨ch, ds1, ⟨hA, hZ⟩, -, -, hcase⟩ := hroom
      rcases hcase with rfl | ⟨ds2, -, -, rfl⟩ <;>
        (injection hc with hc; subst hc; exact isJsWs_false_of_upper hA hZ)
    · intro c hc
      rcases validRoom_getLast hroom with ⟨r, hr, hrd⟩
      rw [hr] at hc
      injection hc with hc
      subst hc
      exact isJsWs_false_of_isDigit hrd
  have hsingle : parseSingleScheduleEntry ('T' :: 'h' :: 'ứ' :: ' ' :: dD :: ',' ::
      (p1 ++ '-' :: p2 ++ ',' :: room)) =
      { day := some D, periods := List.range' P1 (P2 + 1 - P1), room := room } := by
    simp only [parseSingleScheduleEntry, htrim, hday, hperiods, hroomF, htrimroom]
  -- no split separators anywhere in the cell
  have hnosep : ∀ c ∈ 'T' :: 'h' :: 'ứ' :: ' ' :: dD :: ',' ::
      (p1 ++ '-' :: p2 ++ ',' :: room), ¬ (c = ';' ∨ c = '\n') := by
    intro c hc
    simp only [List.mem_cons, List.mem_append, or_assoc] at hc
    rcases hc with rfl | rfl | rfl | rfl | rfl | rfl | hc2 | rfl | hc2 | rfl | hc2
    · decide
    · decide
    · decide
    · decide
    · exact ne_sep_of_isDigit hdD
    · decide
    · exact ne_sep_of_isDigit (hp1d c hc2)
    · decide
    · exact ne_sep_of_isDigit (hp2d c hc2)
    · decide
    · rcases validRoom_mem hroom hc2 with ⟨hA, hZ⟩ | hd | rfl
      · exact ne_sep_of_upper hA hZ
      · exact ne_sep_of_isDigit hd
      · decide
  have hsplit : splitSemiNl ('T' :: 'h' :: 'ứ' :: ' ' :: dD :: ',' ::
      (p1 ++ '-' :: p2 ++ ',' :: room)) =
      ['T' :: 'h' :: 'ứ' :: ' ' :: dD :: ',' :: (p1 ++ '-' :: p2 ++ ',' :: room)] :=
    splitSemiNl_no_sep hnosep
  have hparts : scheduleParts ('T' :: 'h' :: 'ứ' :: ' ' :: dD :: ',' ::
      (p1 ++ '-' :: p2 ++ ',' :: room)) =
      ['T' :: 'h' :: 'ứ' :: ' ' :: dD :: ',' :: (p1 ++ '-' :: p2 ++ ',' :: room)] := by
    unfold scheduleParts
    rw [hsplit, List.map_singleton, htrim]
    simp
  unfold parseScheduleString
  rw [htrim, if_neg (by simp), hparts]
  rw [if_neg (by simp)]
  rw [List.map_singleton, hsingle]
  have hkeep : entryKept
      { day := some D, periods := List.range' P1 (P2 + 1 - P1), room := room } =
      true := by
    simp [entryKept]
    omega
  simp [List.filter, hkeep]

/-- C4 witness: the spec's example cell "Thứ 4,1-2,E2.403". -/
theorem C4_single_entry_parse_witness :
    parseScheduleString
        ('T' :: 'h' :: 'ứ' :: ' ' :: '4' :: ',' ::
          (['1'] ++ '-' :: ['2'] ++ ',' :: ['E', '2', '.', '4', '0', '3'])) =
      [{ day := some 4, periods := List.range' 1 2,
          room := ['E', '2', '.', '4', '0', '3'] }] :=
  C4_single_entry_parse 4 1 2 '4' ['1'] ['2'] ['E', '2', '.', '4', '0', '3']
    (by decide) (by decide) (by decide) (by decide)
    (by decide) (by decide) (by decide)
    (by decide) (by decide) (by decide)
    (by decide) (by decide) (by decide)
    ⟨'E', ['2'], by decide, by decide, by decide,
      Or.inr ⟨['4', '0', '3'], by decide, by decide, rfl⟩⟩

end Chill
